import Mathlib

/-!
Verification of the infinite-infinite-craft combination client
(src/src/main.rs) against its natural-language specification.

The Rust program is embedded shallowly:
* `Element` mirrors the `Element` struct (result, emoji, is_new).
* The two `BTreeMap` stores (`Elements`, `Pairs`) are modelled as
  association lists with first-match lookup; the program only ever
  inserts keys that are absent, so consing is exactly `BTreeMap::insert`
  as far as lookup is concerned.
* The body of the infinite `loop` in `do_combinations` becomes the pure
  step function `do_combinations_step`; the randomness of the two
  `WeightedIndex` draws and the HTTP response are passed in as explicit
  inputs (a list of candidate index pairs for the inner redraw loop, and
  the JSON-decoded response element).
* `merge_existing_elements` becomes a fold returning `Except`, where the
  error payload is the state of the element table at the moment of the
  `panic!` (rows inserted before the conflict have already been
  committed, exactly as in the SQL-backed code).
-/

set_option autoImplicit false

namespace InfiniteCraft

/-- Embeds the `Element` struct of src/src/main.rs (lines 34-40):
`result` is the unique name, `emoji` the display emoji, `is_new` the
server-reported first-ever-discovery flag. -/
structure Element where
  result : String
  emoji : String
  is_new : Bool
deriving DecidableEq, Repr

instance {ε α : Type} [DecidableEq ε] [DecidableEq α] : DecidableEq (Except ε α) :=
  fun x y =>
    match x, y with
    | Except.ok a, Except.ok b =>
      if h : a = b then isTrue (by rw [h]) else
        isFalse (by intro hc; cases hc; exact h rfl)
    | Except.ok _, Except.error _ => isFalse (by intro hc; cases hc)
    | Except.error _, Except.ok _ => isFalse (by intro hc; cases hc)
    | Except.error e, Except.error f =>
      if h : e = f then isTrue (by rw [h]) else
        isFalse (by intro hc; cases hc; exact h rfl)

/-- Association-list lookup with first-match semantics, modelling exact-key
lookup in the program's `BTreeMap` stores and `SELECT ... WHERE` queries. -/
def alistLookup {α β : Type} [DecidableEq α] : List (α × β) → α → Option β
  | [], _ => none
  | (k, v) :: rest, key => if k = key then some v else alistLookup rest key

/-- Embeds `type Elements = BTreeMap<String, Element>` (line 114). -/
abbrev Elements := List (String × Element)

/-- Embeds `type Pairs = BTreeMap<(String, String), Option<String>>` (line 115). -/
abbrev Pairs := List ((String × String) × Option String)

/-- Lexicographic strict comparison of character lists by code point.
On UTF-8 strings, code-point order coincides with the byte-wise
lexicographic order Rust's `String: Ord` uses. -/
def charListLtb : List Char → List Char → Bool
  | [], [] => false
  | [], _ :: _ => true
  | _ :: _, [] => false
  | a :: as, b :: bs =>
    if a.toNat < b.toNat then true
    else if b.toNat < a.toNat then false
    else charListLtb as bs

/-- Embeds Rust's `first < second` comparison of two `String`s:
byte-wise (equivalently code-point-wise) lexicographic order. -/
def string_lt (a b : String) : Bool := charListLtb a.data b.data

/-- Embeds the canonical pair key computation of `do_combinations`
(lines 204-209): the two drawn names sorted so that the lexicographically
smaller one comes first. -/
def pair_key (first second : String) : String × String :=
  if string_lt first second then (first, second) else (second, first)

/-- Embeds the weight expression of the sampler (line 195):
`12 - element.len().min(10)`, where Rust's `String::len` is the UTF-8
byte length. -/
def elementWeight (element : String) : Nat :=
  12 - min element.utf8ByteSize 10

/-- Embeds the weights iterator handed to `WeightedIndex::new` (line 195):
one weight per key of the element store. -/
def loopWeights (elements : Elements) : List Nat :=
  (elements.map Prod.fst).map elementWeight

/-- Models rand's `WeightedIndex::new` as documented: construction fails
exactly when the weight sequence is empty or all weights are zero (the
`Err` that line 195 unwraps). -/
def mkWeightedIndex (weights : List Nat) : Option (List Nat) :=
  if weights = [] ∨ weights.sum = 0 then none else some weights

/-- Embeds the pure result interpretation of `get_pair_value`
(lines 166-171): once the response body has been JSON-decoded into an
`Element`, the sentinel result name "Nothing" maps to `none`, anything
else to `some`. -/
def get_pair_value (element : Element) : Option Element :=
  if element.result = "Nothing" then none else some element

/-- Embeds the URL built by `get_pair_value` (lines 154-156): the two
names are interpolated verbatim into the `format!` string. -/
def pairUrl (first second : String) : String :=
  "https://neal.fun/api/infinite-craft/pair?first=" ++ first ++ "&second=" ++ second

/-- The observable ingredients of the single GET request issued per
candidate pair: URL, the client's fixed user agent (lines 182-188) and
the fixed Referer header (line 157). -/
structure PairRequest where
  url : String
  userAgent : String
  referer : String
deriving DecidableEq, Repr

/-- Embeds the request construction of `get_pair_value` together with the
client configuration of `do_combinations` (lines 150-160, 182-188). -/
def pairRequest (first second : String) : PairRequest :=
  { url := pairUrl first second
  , userAgent := "Mozilla/5.0 (Macintosh; Intel Mac OS X 10.15; rv:122.0) Gecko/20100101 Firefox/122.0"
  , referer := "https://neal.fun/infinite-craft/" }

/-- Embeds the inner redraw loop of `do_combinations` (lines 197-214):
candidate index pairs are drawn until one maps to a pair whose canonical
key is not yet recorded; the index draws are supplied as an explicit
list (the real loop draws them from `WeightedIndex`). Returns the drawn
names in draw order together with the canonical key, or `none` when the
supplied draws are exhausted (the real loop would keep drawing) or an
index is out of range (the real code would panic on `unwrap`). -/
def samplePair (elements : Elements) (pairs : Pairs) :
    List (Nat × Nat) → Option (String × String × (String × String))
  | [] => none
  | (index_1, index_2) :: rest =>
    match (elements.map Prod.fst).get? index_1, (elements.map Prod.fst).get? index_2 with
    | some first, some second =>
      if alistLookup pairs (pair_key first second) = none then
        some (first, second, pair_key first second)
      else
        samplePair elements pairs rest
    | _, _ => none

/-- The in-memory state threaded through the combination loop. -/
structure CombineState where
  elements : Elements
  pairs : Pairs
deriving DecidableEq, Repr

/-- Everything one iteration of the loop body does: the new in-memory
state, the fetch that was issued (draw-order names plus canonical key,
`none` when no fetch happened), the row passed to `insert_pair`
(lines 220-226), and the row passed to `Element::insert` (line 243). -/
structure LoopEffects where
  state : CombineState
  fetched : Option (String × String × (String × String))
  pairRow : Option (String × String × Option String)
  elementRow : Option Element
deriving DecidableEq, Repr

/-- Embeds one iteration of the `loop` body of `do_combinations`
(lines 197-248). `draws` feeds the inner redraw loop; `response` is the
JSON-decoded body of the HTTP response (the fatal non-200 and
parse-failure paths terminate the process and are not modelled). -/
def do_combinations_step (st : CombineState) (draws : List (Nat × Nat))
    (response : Element) : LoopEffects :=
  match samplePair st.elements st.pairs draws with
  | none => { state := st, fetched := none, pairRow := none, elementRow := none }
  | some (first, second, key) =>
    let pair_result := get_pair_value response
    match pair_result with
    | none =>
      { state := { elements := st.elements, pairs := (key, none) :: st.pairs }
      , fetched := some (first, second, key)
      , pairRow := some (first, second, none)
      , elementRow := none }
    | some pr =>
      if alistLookup st.elements pr.result = none then
        { state := { elements := (pr.result, pr) :: st.elements
                   , pairs := (key, some pr.result) :: st.pairs }
        , fetched := some (first, second, key)
        , pairRow := some (first, second, some pr.result)
        , elementRow := some pr }
      else
        { state := { elements := st.elements
                   , pairs := (key, some pr.result) :: st.pairs }
        , fetched := some (first, second, key)
        , pairRow := some (first, second, some pr.result)
        , elementRow := none }

/-- Runs the combination loop for finitely many iterations, collecting
the canonical keys of all fetches that were issued. -/
def do_combinations_run (st : CombineState) :
    List (List (Nat × Nat) × Element) → CombineState × List (String × String)
  | [] => (st, [])
  | (draws, response) :: rest =>
    let effects := do_combinations_step st draws response
    let tail := do_combinations_run effects.state rest
    (tail.1, (effects.fetched.map (fun t => t.2.2)).toList ++ tail.2)

/-- Embeds `merge_existing_elements` (lines 252-274) over the element
table. Each file entry is looked up by name: an identical match is a
no-op, a differing match aborts (`panic!`), an absent name is inserted
immediately. On success it returns the final table together with the
names that were inserted; on abort it returns the table as it stands at
the moment of the panic, since earlier single-row inserts have already
been committed. -/
def merge_existing_elements (store : Elements) :
    List Element → Except Elements (Elements × List String)
  | [] => Except.ok (store, [])
  | element :: rest =>
    match alistLookup store element.result with
    | some matching_element =>
      if matching_element = element then merge_existing_elements store rest
      else Except.error store
    | none =>
      match merge_existing_elements ((element.result, element) :: store) rest with
      | Except.ok (final, inserted) => Except.ok (final, element.result :: inserted)
      | Except.error s => Except.error s

/-- Modelled from the spec: a hexadecimal digit, used by URL
percent-encoding. -/
def hexDigit (n : Nat) : Char :=
  if n < 10 then Char.ofNat (48 + n) else Char.ofNat (55 + n)

/-- Modelled from the spec: the UTF-8 byte sequence of a Unicode code
point, used by URL percent-encoding. -/
def utf8BytesOfCodePoint (n : Nat) : List Nat :=
  if n < 128 then [n]
  else if n < 2048 then [192 + n / 64, 128 + n % 64]
  else if n < 65536 then [224 + n / 4096, 128 + n / 64 % 64, 128 + n % 64]
  else [240 + n / 262144, 128 + n / 4096 % 64, 128 + n / 64 % 64, 128 + n % 64]

/-- Modelled from the spec: characters a URL query-value encoding leaves
unchanged (letters, digits, hyphen, dot, underscore, tilde). -/
def isUnreservedChar (c : Char) : Bool :=
  decide ((65 ≤ c.toNat ∧ c.toNat ≤ 90) ∨ (97 ≤ c.toNat ∧ c.toNat ≤ 122) ∨
    (48 ≤ c.toNat ∧ c.toNat ≤ 57) ∨ c.toNat = 45 ∨ c.toNat = 46 ∨
    c.toNat = 95 ∨ c.toNat = 126)

/-- Modelled from the spec: percent-encoding of one character. -/
def percentEncodeChar (c : Char) : String :=
  if isUnreservedChar c then String.singleton c
  else String.join ((utf8BytesOfCodePoint c.toNat).map (fun b =>
    String.singleton '%' ++ String.singleton (hexDigit (b / 16)) ++
      String.singleton (hexDigit (b % 16))))

/-- Modelled from the spec: URL-encoding of a query parameter value. -/
def urlEncode (s : String) : String :=
  String.join (s.data.map percentEncodeChar)

/-- Modelled from the spec: the pairing URL with the two names passed as
URL-encoded values of the `first` and `second` query parameters, for
comparison with the URL the code actually builds. -/
def specPairUrl (first second : String) : String :=
  "https://neal.fun/api/infinite-craft/pair?first=" ++ urlEncode first ++
    "&second=" ++ urlEncode second

/-- The Element Store invariant of the spec: every name recorded as a
present pair result is a key of the element store. -/
def elementStoreInvariant (st : CombineState) : Prop :=
  ∀ k name, alistLookup st.pairs k = some (some name) →
    alistLookup st.elements name ≠ none

theorem alistLookup_cons {α β : Type} [DecidableEq α] (k : α) (v : β)
    (rest : List (α × β)) (key : α) :
    alistLookup ((k, v) :: rest) key =
      if k = key then some v else alistLookup rest key := rfl

theorem alistLookup_cons_of_ne_none {α β : Type} [DecidableEq α] (k : α) (v : β)
    (rest : List (α × β)) (key : α) (h : alistLookup rest key ≠ none) :
    alistLookup ((k, v) :: rest) key ≠ none := by
  rw [alistLookup_cons]
  split
  · simp
  · exact h

/-- A successful draw of the inner redraw loop always returns a pair whose
canonical key is not yet recorded, and the returned key is the canonical
key of the returned names. -/
theorem samplePair_unseen (elements : Elements) (pairs : Pairs) :
    ∀ (draws : List (Nat × Nat)) (first second : String) (key : String × String),
    samplePair elements pairs draws = some (first, second, key) →
    alistLookup pairs key = none ∧ key = pair_key first second := by
  intro draws
  induction draws with
  | nil => intro first second key h; simp [samplePair] at h
  | cons d rest ih =>
    intro first second key h
    obtain ⟨i1, i2⟩ := d
    simp only [samplePair] at h
    split at h
    · split at h
      next hk =>
        cases h
        exact ⟨hk, rfl⟩
      next hk => exact ih _ _ _ h
    · simp at h

/-- The fetch issued by one loop iteration is exactly the successful draw
of the inner redraw loop. -/
theorem step_fetched_eq (st : CombineState) (draws : List (Nat × Nat))
    (response : Element) :
    (do_combinations_step st draws response).fetched =
      samplePair st.elements st.pairs draws := by
  unfold do_combinations_step
  cases samplePair st.elements st.pairs draws with
  | none => rfl
  | some t =>
    obtain ⟨f, s, k⟩ := t
    cases get_pair_value response with
    | none => rfl
    | some pr =>
      by_cases hl : alistLookup st.elements pr.result = none <;>
        simp [hl]

/-- The pair store after one iteration: unchanged when no fetch happened,
otherwise extended with the fetched canonical key mapped to the fetched
result name. -/
theorem step_pairs_eq (st : CombineState) (draws : List (Nat × Nat))
    (response : Element) :
    (do_combinations_step st draws response).state.pairs =
      match samplePair st.elements st.pairs draws with
      | none => st.pairs
      | some (_, _, key) =>
        (key, (get_pair_value response).map Element.result) :: st.pairs := by
  unfold do_combinations_step
  cases samplePair st.elements st.pairs draws with
  | none => rfl
  | some t =>
    obtain ⟨f, s, k⟩ := t
    cases get_pair_value response with
    | none => rfl
    | some pr =>
      by_cases hl : alistLookup st.elements pr.result = none <;>
        simp [hl]

/-- The element store after one iteration: the result element is consed on
exactly when a fetch happened, a result was returned and its name was not
yet a key. -/
theorem step_elements_eq (st : CombineState) (draws : List (Nat × Nat))
    (response : Element) :
    (do_combinations_step st draws response).state.elements =
      match samplePair st.elements st.pairs draws, get_pair_value response with
      | some _, some pr =>
        if alistLookup st.elements pr.result = none
        then (pr.result, pr) :: st.elements else st.elements
      | _, _ => st.elements := by
  unfold do_combinations_step
  cases samplePair st.elements st.pairs draws with
  | none => rfl
  | some t =>
    obtain ⟨f, s, k⟩ := t
    cases get_pair_value response with
    | none => rfl
    | some pr =>
      by_cases hl : alistLookup st.elements pr.result = none <;>
        simp [hl]

/-- The row given to `Element::insert` in one iteration. -/
theorem step_elementRow_eq (st : CombineState) (draws : List (Nat × Nat))
    (response : Element) :
    (do_combinations_step st draws response).elementRow =
      match samplePair st.elements st.pairs draws, get_pair_value response with
      | some _, some pr =>
        if alistLookup st.elements pr.result = none then some pr else none
      | _, _ => none := by
  unfold do_combinations_step
  cases samplePair st.elements st.pairs draws with
  | none => rfl
  | some t =>
    obtain ⟨f, s, k⟩ := t
    cases get_pair_value response with
    | none => rfl
    | some pr =>
      by_cases hl : alistLookup st.elements pr.result = none <;>
        simp [hl]

/-- Recording is monotone: a recorded key stays recorded across an
iteration. -/
theorem step_pairs_mono (st : CombineState) (draws : List (Nat × Nat))
    (response : Element) (k : String × String)
    (hk : alistLookup st.pairs k ≠ none) :
    alistLookup (do_combinations_step st draws response).state.pairs k ≠ none := by
  rw [step_pairs_eq]
  cases hs : samplePair st.elements st.pairs draws with
  | none => exact hk
  | some t =>
    obtain ⟨f, s, kk⟩ := t
    exact alistLookup_cons_of_ne_none _ _ _ _ hk

/-- A key recorded before a run of iterations is never among the fetched
keys of that run. -/
theorem run_not_fetched (script : List (List (Nat × Nat) × Element)) :
    ∀ (st : CombineState) (k : String × String),
    alistLookup st.pairs k ≠ none → k ∉ (do_combinations_run st script).2 := by
  induction script with
  | nil => intro st k _; simp [do_combinations_run]
  | cons iter rest ih =>
    intro st k hk
    obtain ⟨draws, response⟩ := iter
    have htail := ih (do_combinations_step st draws response).state k
      (step_pairs_mono st draws response k hk)
    simp only [do_combinations_run, List.mem_append]
    rintro (hmem | hmem)
    · rw [step_fetched_eq] at hmem
      cases hs : samplePair st.elements st.pairs draws with
      | none => rw [hs] at hmem; simp at hmem
      | some t =>
        obtain ⟨f, s, kk⟩ := t
        rw [hs] at hmem
        have hkkk : k = kk := by simpa using hmem
        subst hkkk
        exact hk (samplePair_unseen st.elements st.pairs draws f s k hs).1
    · exact htail hmem

/-- The fetched keys of any run are pairwise distinct. -/
theorem run_fetched_nodup (script : List (List (Nat × Nat) × Element)) :
    ∀ st : CombineState, (do_combinations_run st script).2.Nodup := by
  induction script with
  | nil => intro st; simp [do_combinations_run]
  | cons iter rest ih =>
    intro st
    obtain ⟨draws, response⟩ := iter
    simp only [do_combinations_run]
    rcases hf : (do_combinations_step st draws response).fetched with _ | ⟨f, s, kk⟩
    · simpa using ih _
    · rw [show (Option.map (fun t : String × String × (String × String) => t.2.2)
          (some (f, s, kk))).toList = [kk] from rfl, List.singleton_append]
      refine List.nodup_cons.mpr ⟨?_, ih _⟩
      apply run_not_fetched rest (do_combinations_step st draws response).state kk
      rw [step_pairs_eq]
      rw [step_fetched_eq] at hf
      rw [hf, alistLookup_cons]
      simp

/-- C1: once a canonical pair key is recorded in the pair store, no
iteration of the combination loop ever fetches that unordered pair again,
and no unordered pair is fetched twice within a run: the redraw loop only
ever hands an unseen pair to the fetch. -/
theorem no_second_fetch (st : CombineState)
    (script : List (List (Nat × Nat) × Element)) :
    (∀ k, alistLookup st.pairs k ≠ none → k ∉ (do_combinations_run st script).2) ∧
    (do_combinations_run st script).2.Nodup :=
  ⟨fun k => run_not_fetched script st k, run_fetched_nodup script st⟩

/-- Witness for C1: with the pair ("a","b") already recorded, a run that
draws it first redraws and fetches ("a","a") instead; ("a","b") is never
fetched. -/
theorem no_second_fetch_instance :
    alistLookup
      ([((("a" : String), ("b" : String)), (none : Option String))] : Pairs)
      ("a", "b") ≠ none ∧
    ("a", "b") ∉ (do_combinations_run
      { elements := [("a", Element.mk "a" "e" false), ("b", Element.mk "b" "e" false)]
      , pairs := [(("a", "b"), none)] }
      [([(0, 1), (0, 0)], Element.mk "Steam" "s" true)]).2 :=
  ⟨by decide,
   (no_second_fetch
     { elements := [("a", Element.mk "a" "e" false), ("b", Element.mk "b" "e" false)]
     , pairs := [(("a", "b"), none)] }
     [([(0, 1), (0, 0)], Element.mk "Steam" "s" true)]).1
     ("a", "b") (by decide)⟩

/-- One loop iteration preserves the Element Store invariant. -/
theorem step_preserves_invariant (st : CombineState) (draws : List (Nat × Nat))
    (response : Element) (h : elementStoreInvariant st) :
    elementStoreInvariant (do_combinations_step st draws response).state := by
  intro k name hk
  rw [step_pairs_eq] at hk
  rw [step_elements_eq]
  cases hs : samplePair st.elements st.pairs draws with
  | none =>
    rw [hs] at hk
    exact h k name hk
  | some t =>
    obtain ⟨f, s, kk⟩ := t
    rw [hs] at hk
    rw [alistLookup_cons] at hk
    cases hr : get_pair_value response with
    | none =>
      rw [hr] at hk
      by_cases hkk : kk = k
      · rw [if_pos hkk] at hk
        simp at hk
      · rw [if_neg hkk] at hk
        simp only [hr]
        exact h k name hk
    | some pr =>
      rw [hr] at hk
      simp only [hr]
      by_cases hkk : kk = k
      · rw [if_pos hkk] at hk
        simp only [Option.map_some'] at hk
        have hname : name = pr.result := by
          have := Option.some.inj hk
          exact (Option.some.inj this).symm
        subst hname
        by_cases hl : alistLookup st.elements pr.result = none
        · rw [if_pos hl, alistLookup_cons, if_pos rfl]
          simp
        · rw [if_neg hl]
          exact hl
      · rw [if_neg hkk] at hk
        have hold := h k name hk
        by_cases hl : alistLookup st.elements pr.result = none
        · rw [if_pos hl]
          exact alistLookup_cons_of_ne_none _ _ _ _ hold
        · rw [if_neg hl]
          exact hold

/-- A whole run preserves the Element Store invariant. -/
theorem run_preserves_invariant (script : List (List (Nat × Nat) × Element)) :
    ∀ st : CombineState, elementStoreInvariant st →
      elementStoreInvariant (do_combinations_run st script).1 := by
  induction script with
  | nil => intro st h; exact h
  | cons iter rest ih =>
    intro st h
    obtain ⟨draws, response⟩ := iter
    exact ih _ (step_preserves_invariant st draws response h)

/-- The element-row insert of one iteration happens exactly when a fetch
was issued, a result element came back, and its name is not yet a key of
the element store. -/
theorem step_elementRow_iff (st : CombineState) (draws : List (Nat × Nat))
    (response : Element) (e : Element) :
    (do_combinations_step st draws response).elementRow = some e ↔
      ((do_combinations_step st draws response).fetched ≠ none ∧
        get_pair_value response = some e ∧
        alistLookup st.elements e.result = none) := by
  rw [step_elementRow_eq, step_fetched_eq]
  cases hs : samplePair st.elements st.pairs draws with
  | none => simp
  | some t =>
    obtain ⟨f, s, k⟩ := t
    cases hr : get_pair_value response with
    | none => simp
    | some pr =>
      by_cases hl : alistLookup st.elements pr.result = none
      · simp only [if_pos hl, ne_eq, Option.some.injEq, reduceCtorEq,
          not_false_iff, true_and]
        constructor
        · intro he
          subst he
          exact ⟨rfl, hl⟩
        · rintro ⟨he, -⟩
          exact he
      · simp only [if_neg hl, ne_eq, Option.some.injEq, reduceCtorEq,
          not_false_iff, true_and, false_iff]
        rintro ⟨he, hle⟩
        subst he
        exact hl hle

/-- C5: the Element Store invariant — every name recorded as a present
pair result is a key of the element store — is preserved by every run of
the combination loop, and within an iteration the result element is
inserted exactly when a fetch was issued, a result came back and its name
is not yet a key. -/
theorem element_store_invariant_preserved (st : CombineState)
    (script : List (List (Nat × Nat) × Element))
    (h : elementStoreInvariant st) :
    elementStoreInvariant (do_combinations_run st script).1 ∧
    ∀ (draws : List (Nat × Nat)) (response : Element) (e : Element),
      ((do_combinations_step st draws response).elementRow = some e ↔
        ((do_combinations_step st draws response).fetched ≠ none ∧
          get_pair_value response = some e ∧
          alistLookup st.elements e.result = none)) :=
  ⟨run_preserves_invariant script st h,
   fun draws response e => step_elementRow_iff st draws response e⟩

/-- Witness for C5: the singleton "Water" store with no recorded pairs
satisfies the invariant, and so does the state after one iteration that
combines Water with itself into Steam. -/
theorem element_store_invariant_preserved_instance :
    elementStoreInvariant
      { elements := [("Water", Element.mk "Water" "w" false)], pairs := [] } ∧
    elementStoreInvariant
      (do_combinations_run
        { elements := [("Water", Element.mk "Water" "w" false)], pairs := [] }
        [([(0, 0)], Element.mk "Steam" "s" true)]).1 :=
  ⟨fun _ _ hk => Option.noConfusion hk,
   (element_store_invariant_preserved
     { elements := [("Water", Element.mk "Water" "w" false)], pairs := [] }
     [([(0, 0)], Element.mk "Steam" "s" true)]
     (fun _ _ hk => Option.noConfusion hk)).1⟩

/-- C6: a decoded response whose result name is the sentinel "Nothing" is
interpreted as absent; the iteration records the canonical key with an
absent value, inserts no element row and leaves the element store
unchanged. -/
theorem nothing_sentinel_records_absent (st : CombineState)
    (draws : List (Nat × Nat)) (response : Element)
    (h : response.result = "Nothing") :
    get_pair_value response = none ∧
    (do_combinations_step st draws response).state.elements = st.elements ∧
    (do_combinations_step st draws response).elementRow = none ∧
    ∀ f s key, samplePair st.elements st.pairs draws = some (f, s, key) →
      alistLookup (do_combinations_step st draws response).state.pairs key =
        some none := by
  have hg : get_pair_value response = none := by simp [get_pair_value, h]
  refine ⟨hg, ?_, ?_, ?_⟩
  · rw [step_elements_eq]
    cases hs : samplePair st.elements st.pairs draws <;> simp [hg]
  · rw [step_elementRow_eq]
    cases hs : samplePair st.elements st.pairs draws <;> simp [hg]
  · intro f s key hs
    rw [step_pairs_eq, hs]
    simp [hg, alistLookup_cons]

/-- Witness for C6: combining Water with itself when the server answers
"Nothing" records ("Water","Water") as absent and leaves the element
store untouched. -/
theorem nothing_sentinel_records_absent_instance :
    (Element.mk "Nothing" "" false).result = "Nothing" ∧
    get_pair_value (Element.mk "Nothing" "" false) = none ∧
    (do_combinations_step
      { elements := [("Water", Element.mk "Water" "w" false)], pairs := [] }
      [(0, 0)] (Element.mk "Nothing" "" false)).state.elements =
      [("Water", Element.mk "Water" "w" false)] ∧
    alistLookup (do_combinations_step
      { elements := [("Water", Element.mk "Water" "w" false)], pairs := [] }
      [(0, 0)] (Element.mk "Nothing" "" false)).state.pairs
      ("Water", "Water") = some none :=
  ⟨rfl,
   (nothing_sentinel_records_absent
     { elements := [("Water", Element.mk "Water" "w" false)], pairs := [] }
     [(0, 0)] (Element.mk "Nothing" "" false) rfl).1,
   (nothing_sentinel_records_absent
     { elements := [("Water", Element.mk "Water" "w" false)], pairs := [] }
     [(0, 0)] (Element.mk "Nothing" "" false) rfl).2.1,
   (nothing_sentinel_records_absent
     { elements := [("Water", Element.mk "Water" "w" false)], pairs := [] }
     [(0, 0)] (Element.mk "Nothing" "" false) rfl).2.2.2
     "Water" "Water" ("Water", "Water") (by decide)⟩

theorem charListLtb_asymm :
    ∀ x y, charListLtb x y = true → charListLtb y x = false := by
  intro x
  induction x with
  | nil =>
    intro y h
    cases y with
    | nil => simp [charListLtb] at h
    | cons b bs => simp [charListLtb]
  | cons a as ih =>
    intro y h
    cases y with
    | nil => simp [charListLtb] at h
    | cons b bs =>
      simp only [charListLtb] at h ⊢
      by_cases hab : a.toNat < b.toNat
      · rw [if_neg (by omega), if_pos hab]
      · rw [if_neg hab] at h
        by_cases hba : b.toNat < a.toNat
        · rw [if_pos hba] at h
          exact absurd h (by simp)
        · rw [if_neg hba] at h
          rw [if_neg hba, if_neg hab]
          exact ih bs h

theorem charListLtb_eq_of_not_lt :
    ∀ x y, charListLtb x y = false → charListLtb y x = false → x = y := by
  intro x
  induction x with
  | nil =>
    intro y h1 _
    cases y with
    | nil => rfl
    | cons b bs => simp [charListLtb] at h1
  | cons a as ih =>
    intro y h1 h2
    cases y with
    | nil => simp [charListLtb] at h2
    | cons b bs =>
      simp only [charListLtb] at h1 h2
      by_cases hab : a.toNat < b.toNat
      · rw [if_pos hab] at h1
        exact absurd h1 (by simp)
      · by_cases hba : b.toNat < a.toNat
        · rw [if_pos hba] at h2
          exact absurd h2 (by simp)
        · rw [if_neg hab, if_neg hba] at h1
          have hchar : a = b := by
            have hn : a.toNat = b.toNat := by omega
            have := congrArg Char.ofNat hn
            rwa [Char.ofNat_toNat, Char.ofNat_toNat] at this
          rw [if_neg hba, if_neg hab] at h2
          rw [hchar, ih bs h1 h2]

theorem string_lt_asymm (a b : String) (h : string_lt a b = true) :
    string_lt b a = false :=
  charListLtb_asymm a.data b.data h

theorem string_lt_eq_of_not_lt (a b : String) (h1 : string_lt a b = false)
    (h2 : string_lt b a = false) : a = b := by
  have hdata : a.data = b.data := charListLtb_eq_of_not_lt a.data b.data h1 h2
  cases a
  cases b
  exact congrArg String.mk hdata

/-- C4: canonical pair key construction is commutative, and the key always
places the lexicographically smaller name first: the second component is
never strictly smaller than the first, and the key is one of the two
orderings of the input names. -/
theorem pair_key_commutative (a b : String) :
    pair_key a b = pair_key b a ∧
    string_lt (pair_key a b).2 (pair_key a b).1 = false ∧
    (pair_key a b = (a, b) ∨ pair_key a b = (b, a)) := by
  unfold pair_key
  cases hab : string_lt a b with
  | true =>
    have hba : string_lt b a = false := string_lt_asymm a b hab
    simp [hab, hba]
  | false =>
    cases hba : string_lt b a with
    | true => simp [hab, hba]
    | false =>
      have heq : a = b := string_lt_eq_of_not_lt a b hab hba
      subst heq
      simp [hab]

/-- C2: at a concrete iteration whose two names are drawn in reverse
lexicographic order, the row handed to `insert_pair` keeps the draw order
("b","a") while the in-memory canonical pair key is the sorted tuple
("a","b"); a pair store reloaded from that row does not contain the
canonical key, so the dedup lookup of a later run misses it. -/
theorem pair_row_unsorted_bug :
    (do_combinations_step
      { elements := [("a", Element.mk "a" "e" false), ("b", Element.mk "b" "e" false)]
      , pairs := [] }
      [(1, 0)] (Element.mk "Steam" "s" true)).pairRow =
        some ("b", "a", some "Steam") ∧
    (do_combinations_step
      { elements := [("a", Element.mk "a" "e" false), ("b", Element.mk "b" "e" false)]
      , pairs := [] }
      [(1, 0)] (Element.mk "Steam" "s" true)).fetched =
        some ("b", "a", ("a", "b")) ∧
    (("b", "a") : String × String) ≠ ("a", "b") ∧
    alistLookup ([((("b" : String), ("a" : String)), some "Steam")] : Pairs)
      (pair_key "a" "b") = none := by decide

/-- C3 counterexample: merging a file whose first entry "Steam" is new and
whose second entry conflicts with the stored "Water" aborts, yet the
element table at the moment of the abort already contains "Steam" — the
store is not left unchanged. -/
theorem merge_not_atomic_on_conflict :
    merge_existing_elements [("Water", Element.mk "Water" "w" false)]
      [Element.mk "Steam" "s" false, Element.mk "Water" "w" true] =
      Except.error [("Steam", Element.mk "Steam" "s" false),
        ("Water", Element.mk "Water" "w" false)] ∧
    ([("Steam", Element.mk "Steam" "s" false),
      ("Water", Element.mk "Water" "w" false)] : Elements) ≠
      [("Water", Element.mk "Water" "w" false)] := by decide

/-- C3 (amended): on a conflicting import the merge terminates fatally at
the first conflicting entry, but it is not atomic: the store at the abort
is exactly the store produced by successfully merging the entries before
the conflict, so earlier new elements from the file remain saved. -/
theorem merge_abort_after_prior_inserts (store : Elements)
    (file : List Element) (s : Elements)
    (h : merge_existing_elements store file = Except.error s) :
    ∃ earlier conflict later inserted,
      file = earlier ++ conflict :: later ∧
      merge_existing_elements store earlier = Except.ok (s, inserted) ∧
      ∃ matching_element, alistLookup s conflict.result = some matching_element ∧
        matching_element ≠ conflict := by
  induction file generalizing store with
  | nil => exact absurd h (by simp [merge_existing_elements])
  | cons element rest ih =>
    simp only [merge_existing_elements] at h
    cases hl : alistLookup store element.result with
    | some matching_element =>
      simp only [hl] at h
      by_cases hm : matching_element = element
      · rw [if_pos hm] at h
        obtain ⟨earlier, conflict, later, inserted, hfile, hok, m, hm2, hne⟩ :=
          ih store h
        refine ⟨element :: earlier, conflict, later, inserted, ?_, ?_, m, hm2, hne⟩
        · rw [hfile]; rfl
        · simp only [merge_existing_elements, hl, if_pos hm]
          exact hok
      · rw [if_neg hm] at h
        have hs : store = s := by simpa using h
        subst hs
        exact ⟨[], element, rest, [], rfl, rfl, matching_element, hl, hm⟩
    | none =>
      simp only [hl] at h
      cases hrec : merge_existing_elements ((element.result, element) :: store) rest with
      | ok p =>
        obtain ⟨final, ins⟩ := p
        simp only [hrec] at h
        exact absurd h (by simp)
      | error s2 =>
        simp only [hrec] at h
        have hs : s2 = s := by simpa using h
        subst hs
        obtain ⟨earlier, conflict, later, inserted, hfile, hok, m, hm2, hne⟩ :=
          ih _ hrec
        refine ⟨element :: earlier, conflict, later, element.result :: inserted,
          ?_, ?_, m, hm2, hne⟩
        · rw [hfile]; rfl
        · simp only [merge_existing_elements, hl, hok]

/-- Witness for the amended C3 at the concrete counterexample input. -/
theorem merge_abort_after_prior_inserts_instance :
    merge_existing_elements [("Water", Element.mk "Water" "w" false)]
      [Element.mk "Steam" "s" false, Element.mk "Water" "w" true] =
      Except.error [("Steam", Element.mk "Steam" "s" false),
        ("Water", Element.mk "Water" "w" false)] ∧
    ∃ earlier conflict later inserted,
      ([Element.mk "Steam" "s" false, Element.mk "Water" "w" true] : List Element) =
        earlier ++ conflict :: later ∧
      merge_existing_elements [("Water", Element.mk "Water" "w" false)] earlier =
        Except.ok ([("Steam", Element.mk "Steam" "s" false),
          ("Water", Element.mk "Water" "w" false)], inserted) ∧
      ∃ matching_element,
        alistLookup [("Steam", Element.mk "Steam" "s" false),
          ("Water", Element.mk "Water" "w" false)] conflict.result =
          some matching_element ∧
        matching_element ≠ conflict :=
  ⟨by decide,
   merge_abort_after_prior_inserts
     [("Water", Element.mk "Water" "w" false)]
     [Element.mk "Steam" "s" false, Element.mk "Water" "w" true]
     [("Steam", Element.mk "Steam" "s" false),
      ("Water", Element.mk "Water" "w" false)] (by decide)⟩

/-- A successful merge preserves every entry the store already had. -/
theorem merge_lookup_mono (file : List Element) :
    ∀ (store s : Elements) (ins : List String),
    merge_existing_elements store file = Except.ok (s, ins) →
    ∀ n v, alistLookup store n = some v → alistLookup s n = some v := by
  induction file with
  | nil =>
    intro store s ins h n v hv
    simp only [merge_existing_elements, Except.ok.injEq, Prod.mk.injEq] at h
    exact h.1 ▸ hv
  | cons element rest ih =>
    intro store s ins h n v hv
    simp only [merge_existing_elements] at h
    cases hl : alistLookup store element.result with
    | some m =>
      simp only [hl] at h
      by_cases hm : m = element
      · rw [if_pos hm] at h
        exact ih store s ins h n v hv
      · rw [if_neg hm] at h
        exact absurd h (by simp)
    | none =>
      simp only [hl] at h
      cases hrec : merge_existing_elements ((element.result, element) :: store) rest with
      | ok p =>
        obtain ⟨final, ins2⟩ := p
        simp only [hrec] at h
        simp only [Except.ok.injEq, Prod.mk.injEq] at h
        obtain ⟨h1, -⟩ := h
        subst h1
        apply ih _ _ _ hrec n v
        rw [alistLookup_cons]
        by_cases hne : element.result = n
        · subst hne
          rw [hl] at hv
          exact absurd hv (by simp)
        · rw [if_neg hne]
          exact hv
      | error s2 =>
        simp only [hrec] at h
        exact absurd h (by simp)

/-- After a successful merge every file entry is present in the final
store under its own name with its own value. -/
theorem merge_ok_all_present (file : List Element) :
    ∀ (store s : Elements) (ins : List String),
    merge_existing_elements store file = Except.ok (s, ins) →
    ∀ e, e ∈ file → alistLookup s e.result = some e := by
  induction file with
  | nil =>
    intro store s ins _ e he
    exact absurd he (List.not_mem_nil e)
  | cons element rest ih =>
    intro store s ins h e he
    simp only [merge_existing_elements] at h
    cases hl : alistLookup store element.result with
    | some m =>
      simp only [hl] at h
      by_cases hm : m = element
      · rw [if_pos hm] at h
        rcases List.mem_cons.mp he with he1 | he2
        · subst he1
          exact merge_lookup_mono rest store s ins h _ _ (hm ▸ hl)
        · exact ih store s ins h e he2
      · rw [if_neg hm] at h
        exact absurd h (by simp)
    | none =>
      simp only [hl] at h
      cases hrec : merge_existing_elements ((element.result, element) :: store) rest with
      | ok p =>
        obtain ⟨final, ins2⟩ := p
        simp only [hrec] at h
        simp only [Except.ok.injEq, Prod.mk.injEq] at h
        obtain ⟨h1, -⟩ := h
        subst h1
        rcases List.mem_cons.mp he with he1 | he2
        · subst he1
          exact merge_lookup_mono rest _ _ _ hrec _ _
            (by rw [alistLookup_cons, if_pos rfl])
        · exact ih _ _ _ hrec e he2
      | error s2 =>
        simp only [hrec] at h
        exact absurd h (by simp)

/-- Merging a file all of whose entries are already present with identical
values is a no-op that inserts nothing and raises no conflict. -/
theorem merge_of_all_present (file : List Element) :
    ∀ s : Elements, (∀ e, e ∈ file → alistLookup s e.result = some e) →
    merge_existing_elements s file = Except.ok (s, []) := by
  induction file with
  | nil => intro s _; rfl
  | cons element rest ih =>
    intro s h
    have he : alistLookup s element.result = some element :=
      h element (List.mem_cons_self element rest)
    simp only [merge_existing_elements, he, if_pos rfl]
    exact ih s (fun e hmem => h e (List.mem_cons_of_mem element hmem))

/-- C9: the import merge is idempotent — if merging a file into a store
succeeds, merging the same file into the resulting store performs no
inserts, raises no conflict, and leaves the store exactly as it was after
the first merge. -/
theorem merge_idempotent (store : Elements) (file : List Element)
    (s : Elements) (ins : List String)
    (h : merge_existing_elements store file = Except.ok (s, ins)) :
    merge_existing_elements s file = Except.ok (s, []) :=
  merge_of_all_present file s (merge_ok_all_present file store s ins h)

/-- Witness for C9: merging the one-element "Steam" file into the "Water"
store inserts "Steam"; merging it again into the result changes nothing. -/
theorem merge_idempotent_instance :
    merge_existing_elements [("Water", Element.mk "Water" "w" false)]
      [Element.mk "Steam" "s" false] =
      Except.ok ([("Steam", Element.mk "Steam" "s" false),
        ("Water", Element.mk "Water" "w" false)], ["Steam"]) ∧
    merge_existing_elements
      [("Steam", Element.mk "Steam" "s" false),
       ("Water", Element.mk "Water" "w" false)]
      [Element.mk "Steam" "s" false] =
      Except.ok ([("Steam", Element.mk "Steam" "s" false),
        ("Water", Element.mk "Water" "w" false)], []) :=
  ⟨by decide,
   merge_idempotent [("Water", Element.mk "Water" "w" false)]
     [Element.mk "Steam" "s" false]
     [("Steam", Element.mk "Steam" "s" false),
      ("Water", Element.mk "Water" "w" false)]
     ["Steam"] (by decide)⟩

/-- C8 counterexample: for the name "Hot Dog" the URL the code builds
differs from the URL with URL-encoded query parameter values — the space
is interpolated verbatim instead of being percent-encoded. -/
theorem pair_url_not_encoded :
    pairUrl "Hot Dog" "Water" ≠ specPairUrl "Hot Dog" "Water" := by decide

/-- C8 (amended): the client issues a single GET to the fixed pairing
endpoint with the fixed user agent and referer, but the two names are
interpolated verbatim as the `first` and `second` query values; the
request URL coincides with the URL-encoded form exactly on names the
encoding leaves unchanged. -/
theorem pair_request_verbatim (first second : String)
    (h1 : urlEncode first = first) (h2 : urlEncode second = second) :
    pairRequest first second =
      { url := specPairUrl first second
      , userAgent := "Mozilla/5.0 (Macintosh; Intel Mac OS X 10.15; rv:122.0) Gecko/20100101 Firefox/122.0"
      , referer := "https://neal.fun/infinite-craft/" } := by
  unfold pairRequest pairUrl specPairUrl
  rw [h1, h2]

/-- Witness for the amended C8 at the plain names "Water" and "Fire". -/
theorem pair_request_verbatim_instance :
    urlEncode "Water" = "Water" ∧ urlEncode "Fire" = "Fire" ∧
    pairRequest "Water" "Fire" =
      { url := specPairUrl "Water" "Fire"
      , userAgent := "Mozilla/5.0 (Macintosh; Intel Mac OS X 10.15; rv:122.0) Gecko/20100101 Firefox/122.0"
      , referer := "https://neal.fun/infinite-craft/" } :=
  ⟨by decide, by decide,
   pair_request_verbatim "Water" "Fire" (by decide) (by decide)⟩

/-- C7: the weighted sampler gives every element name the weight
`12 - min(length, 10)`; every name of byte length at least 10 gets
weight 2 and every 1-byte name gets weight 11, and both sampled indices
are drawn against the same weight list, one weight per store key. -/
theorem weighted_sampler_weight_formula (name : String) :
    elementWeight name = 12 - min name.utf8ByteSize 10 ∧
    (10 ≤ name.utf8ByteSize → elementWeight name = 2) ∧
    (name.utf8ByteSize = 1 → elementWeight name = 11) := by
  refine ⟨rfl, fun h => ?_, fun h => ?_⟩
  · unfold elementWeight
    omega
  · unfold elementWeight
    omega

/-- Witness for C7 at concrete names: "combustion" has byte length 10 and
weight 2; "a" has byte length 1 and weight 11. -/
theorem weighted_sampler_weight_formula_instance :
    (10 ≤ ("combustion" : String).utf8ByteSize ∧ elementWeight "combustion" = 2) ∧
    (("a" : String).utf8ByteSize = 1 ∧ elementWeight "a" = 11) :=
  ⟨⟨by decide, (weighted_sampler_weight_formula "combustion").2.1 (by decide)⟩,
   ⟨by decide, (weighted_sampler_weight_formula "a").2.2 (by decide)⟩⟩

/-- C10: for every name the weight `12 - min(len, 10)` stays between 2 and
12, the subtraction never underflows (it agrees with the integer-valued
subtraction), and for a non-empty element store the weighted distribution
is constructed successfully. -/
theorem weighted_index_construction_succeeds (elems : Elements)
    (h : elems ≠ []) :
    (∀ name : String, 2 ≤ elementWeight name ∧ elementWeight name ≤ 12 ∧
      (12 : Int) - (min name.utf8ByteSize 10 : Nat) = (elementWeight name : Int)) ∧
    mkWeightedIndex (loopWeights elems) = some (loopWeights elems) := by
  constructor
  · intro name
    unfold elementWeight
    have hmin : min name.utf8ByteSize 10 ≤ 10 := min_le_right _ _
    refine ⟨by omega, by omega, ?_⟩
    push_cast
    omega
  · rcases elems with _ | ⟨⟨name, element⟩, rest⟩
    · exact absurd rfl h
    · unfold mkWeightedIndex loopWeights
      have hw : 2 ≤ elementWeight name := by
        unfold elementWeight
        omega
      simp only [List.map_cons, List.sum_cons]
      rw [if_neg]
      rintro (hnil | hsum)
      · exact List.cons_ne_nil _ _ hnil
      · omega

/-- Witness for C10 at the one-element store containing "Water". -/
theorem weighted_index_construction_succeeds_instance :
    ([(("Water" : String), Element.mk "Water" "W" false)] : Elements) ≠ [] ∧
    mkWeightedIndex (loopWeights [("Water", Element.mk "Water" "W" false)]) =
      some (loopWeights [("Water", Element.mk "Water" "W" false)]) :=
  ⟨by decide,
   (weighted_index_construction_succeeds
     [("Water", Element.mk "Water" "W" false)] (by decide)).2⟩

end InfiniteCraft
